import Mathlib

/-
Verification of the envii CLI core (project scanner, crypto envelope,
restore matcher), shallowly embedded from the TypeScript sources.

Bytes are modelled as `Fin 256`, buffers as `List (Fin 256)`, and the
Node.js library primitives that the repository calls but does not define
(AES-256-GCM, gzip, base64, SHA-256, `path.join`) are modelled from the
specification, each marked `Modelled from the spec:` at its definition.
-/

set_option autoImplicit false
set_option maxRecDepth 4000

namespace Envii

abbrev Byte := Fin 256
abbrev Bytes := List Byte

def byteOfNat (n : Nat) : Byte := ⟨n % 256, Nat.mod_lt _ (by omega)⟩
def sixOfNat (n : Nat) : Fin 64 := ⟨n % 64, Nat.mod_lt _ (by omega)⟩

/-! base64, as used by `Buffer.toString("base64")` / `Buffer.from(s, "base64")`.

Modelled from the spec: the envelope is "a single base64 string".  Encoding is
standard RFC 4648 base64 with `=` padding; decoding ignores non-alphabet
characters (as Node's lenient decoder does) and drops the unused low bits of a
final partial group. -/

def b64Alphabet : List Char :=
  ['A','B','C','D','E','F','G','H','I','J','K','L','M',
   'N','O','P','Q','R','S','T','U','V','W','X','Y','Z',
   'a','b','c','d','e','f','g','h','i','j','k','l','m',
   'n','o','p','q','r','s','t','u','v','w','x','y','z',
   '0','1','2','3','4','5','6','7','8','9','+','/']

theorem b64Alphabet_length : b64Alphabet.length = 64 := rfl

def sixToChar (x : Fin 64) : Char :=
  b64Alphabet.get ⟨x.val, by rw [b64Alphabet_length]; exact x.isLt⟩

def charToSix (c : Char) : Option (Fin 64) :=
  if h : b64Alphabet.indexOf c < 64 then some ⟨b64Alphabet.indexOf c, h⟩ else none

theorem charToSix_sixToChar : ∀ x : Fin 64, charToSix (sixToChar x) = some x := by decide

theorem charToSix_pad : charToSix '=' = none := by decide

def fromSixes : List (Fin 64) → Bytes
  | a :: b :: c :: d :: rest =>
      byteOfNat (a.val * 4 + b.val / 16) ::
      byteOfNat ((b.val % 16) * 16 + c.val / 4) ::
      byteOfNat ((c.val % 4) * 64 + d.val) :: fromSixes rest
  | [a, b, c] =>
      [byteOfNat (a.val * 4 + b.val / 16), byteOfNat ((b.val % 16) * 16 + c.val / 4)]
  | [a, b] => [byteOfNat (a.val * 4 + b.val / 16)]
  | _ => []

def decodeB64 (s : List Char) : Bytes := fromSixes (s.filterMap charToSix)

def encodeB64 : Bytes → List Char
  | [] => []
  | [a] => [sixToChar (sixOfNat (a.val / 4)), sixToChar (sixOfNat ((a.val % 4) * 16)), '=', '=']
  | [a, b] =>
      [sixToChar (sixOfNat (a.val / 4)), sixToChar (sixOfNat ((a.val % 4) * 16 + b.val / 16)),
       sixToChar (sixOfNat ((b.val % 16) * 4)), '=']
  | a :: b :: c :: rest =>
      sixToChar (sixOfNat (a.val / 4)) :: sixToChar (sixOfNat ((a.val % 4) * 16 + b.val / 16)) ::
      sixToChar (sixOfNat ((b.val % 16) * 4 + c.val / 64)) :: sixToChar (sixOfNat (c.val % 64)) ::
      encodeB64 rest

/-- Recursor matching the three-byte grouping of base64. -/
def bytesChunks {motive : Bytes → Sort*}
    (h0 : motive []) (h1 : ∀ a, motive [a]) (h2 : ∀ a b, motive [a, b])
    (h3 : ∀ a b c rest, motive rest → motive (a :: b :: c :: rest)) :
    ∀ l, motive l
  | [] => h0
  | [a] => h1 a
  | [a, b] => h2 a b
  | a :: b :: c :: rest => h3 a b c rest (bytesChunks h0 h1 h2 h3 rest)

theorem decodeB64_encodeB64 (l : Bytes) : decodeB64 (encodeB64 l) = l := by
  induction l using bytesChunks with
  | h0 => rfl
  | h1 a =>
      have ha := a.isLt
      simp only [encodeB64, decodeB64, List.filterMap_cons, charToSix_sixToChar,
        charToSix_pad, List.filterMap_nil, fromSixes, sixOfNat, byteOfNat,
        List.cons.injEq, and_true]
      exact Fin.ext (by simp; omega)
  | h2 a b =>
      have ha := a.isLt
      have hb := b.isLt
      simp only [encodeB64, decodeB64, List.filterMap_cons, charToSix_sixToChar,
        charToSix_pad, List.filterMap_nil, fromSixes, sixOfNat, byteOfNat,
        List.cons.injEq, and_true]
      constructor
      · exact Fin.ext (by simp; omega)
      · exact Fin.ext (by simp; omega)
  | h3 a b c rest ih =>
      have ha := a.isLt
      have hb := b.isLt
      have hc := c.isLt
      simp only [encodeB64, decodeB64, List.filterMap_cons, charToSix_sixToChar,
        fromSixes, sixOfNat, byteOfNat, List.cons.injEq] at ih ⊢
      refine ⟨Fin.ext (by simp; omega), Fin.ext (by simp; omega),
        Fin.ext (by simp; omega), ih⟩

/-! The authenticated cipher.

Modelled from the spec: AES-256-GCM is a Node `crypto` primitive, not code of
this repository.  The spec relies on exactly two of its properties: decrypting
with the same key, nonce and tag returns the plaintext, and any single-byte
change to nonce, ciphertext or tag makes tag verification fail.  We model a
length-preserving keyed stream cipher together with a 16-byte tag that encodes
a polynomial checksum modulo the prime 257, which provably detects every
single-byte change (a byte differs by `δ` with `0 < |δ| < 256 < 257`, and
`256 ≡ -1 (mod 257)` is a unit, so the checksum moves). -/

instance : Fact (Nat.Prime 257) := ⟨by norm_num⟩

/-- Polynomial checksum of a byte string in `ZMod 257` (little-endian base 256). -/
def chk (l : Bytes) : ZMod 257 :=
  l.foldr (fun b acc => (b.val : ZMod 257) + 256 * acc) 0

theorem chk_nil : chk [] = 0 := rfl

theorem chk_cons (b : Byte) (l : Bytes) :
    chk (b :: l) = (b.val : ZMod 257) + 256 * chk l := rfl

/-- Keystream byte `j` for a key/nonce pair. -/
def ksByte (key iv : Bytes) (j : Nat) : Byte := byteOfNat ((chk (key ++ iv)).val + j)

/-- The stream cipher: ciphertext byte `j` is plaintext byte plus keystream byte. -/
def gcmCipher (key iv : Bytes) : Nat → Bytes → Bytes
  | _, [] => []
  | j, b :: rest => (b + ksByte key iv j) :: gcmCipher key iv (j + 1) rest

def gcmUncipher (key iv : Bytes) : Nat → Bytes → Bytes
  | _, [] => []
  | j, b :: rest => (b - ksByte key iv j) :: gcmUncipher key iv (j + 1) rest

/-- 16-byte encoding of a checksum value (two value bytes, zero padding). -/
def encode16 (v : Nat) : Bytes :=
  byteOfNat v :: byteOfNat (v / 256) :: List.replicate 14 (0 : Byte)

/-- The 16-byte GCM authentication tag over key, nonce and ciphertext. -/
def gcmTag (key iv ct : Bytes) : Bytes := encode16 (chk (key ++ (iv ++ ct))).val

theorem gcmTag_length (key iv ct : Bytes) : (gcmTag key iv ct).length = 16 := rfl

theorem gcmCipher_length (key iv : Bytes) :
    ∀ (j : Nat) (l : Bytes), (gcmCipher key iv j l).length = l.length
  | _, [] => rfl
  | j, _ :: rest => by
      simp only [gcmCipher, List.length_cons, gcmCipher_length key iv (j + 1) rest]

theorem gcmUncipher_gcmCipher (key iv : Bytes) :
    ∀ (j : Nat) (l : Bytes), gcmUncipher key iv j (gcmCipher key iv j l) = l
  | _, [] => rfl
  | j, b :: rest => by
      simp only [gcmCipher, gcmUncipher, add_sub_cancel_right,
        gcmUncipher_gcmCipher key iv (j + 1) rest]

theorem chk_set (l : Bytes) (i : Nat) (b' a : Byte) (hg : l[i]? = some a) :
    chk (l.set i b') = chk l + 256 ^ i * ((b'.val : ZMod 257) - (a.val : ZMod 257)) := by
  induction l generalizing i with
  | nil => simp at hg
  | cons c rest ih =>
      cases i with
      | zero =>
          rw [List.getElem?_cons_zero] at hg
          obtain rfl : c = a := Option.some.inj hg
          simp only [List.set, chk_cons, pow_zero, one_mul]
          ring
      | succ i =>
          rw [List.getElem?_cons_succ] at hg
          simp only [List.set, chk_cons, ih i hg, pow_succ]
          ring

theorem chk_set_ne (l : Bytes) (i : Nat) (b' a : Byte) (hg : l[i]? = some a)
    (hne : b' ≠ a) : chk (l.set i b') ≠ chk l := by
  rw [chk_set l i b' a hg]
  intro hEq
  have ht : (256 : ZMod 257) ^ i * ((b'.val : ZMod 257) - (a.val : ZMod 257)) = 0 := by
    rwa [add_right_eq_self] at hEq
  rcases mul_eq_zero.mp ht with hpow | hsub
  · exact pow_ne_zero i (show (256 : ZMod 257) ≠ 0 by decide) hpow
  · have hcast : (b'.val : ZMod 257) = (a.val : ZMod 257) := sub_eq_zero.mp hsub
    have h1 : ((b'.val : ZMod 257)).val = b'.val :=
      ZMod.val_natCast_of_lt (by have := b'.isLt; omega)
    have h2 : ((a.val : ZMod 257)).val = a.val :=
      ZMod.val_natCast_of_lt (by have := a.isLt; omega)
    exact hne (Fin.ext (by rw [← h1, ← h2, hcast]))

theorem encode16_inj {v w : Nat} (hv : v < 65536) (hw : w < 65536)
    (h : encode16 v = encode16 w) : v = w := by
  simp only [encode16, byteOfNat, List.cons.injEq, Fin.mk.injEq, and_true] at h
  omega

theorem gcmTag_congr_ne {x y : Bytes} (h : chk x ≠ chk y) :
    encode16 (chk x).val ≠ encode16 (chk y).val := by
  intro hEq
  exact h (ZMod.val_injective 257
    (encode16_inj (by have := (chk x).val_lt; omega) (by have := (chk y).val_lt; omega) hEq))

/-! The crypto pipeline, from `src/core/crypto.ts`. -/

def IV_LENGTH : Nat := 12
def AUTH_TAG_LENGTH : Nat := 16
def KEY_LENGTH : Nat := 32
def SALT_LENGTH : Nat := 32

/-- From `crypto.ts` `encrypt`: AES-256-GCM producing `iv ++ ciphertext ++ authTag`.
The random IV generated inside the source function is lifted to the parameter
`iv` (randomness is an external input in this embedding). -/
def encrypt (data key iv : Bytes) : Bytes :=
  iv ++ (gcmCipher key iv 0 data ++ gcmTag key iv (gcmCipher key iv 0 data))

/-- From `crypto.ts` `decrypt`: splits `iv (12) ++ ciphertext ++ authTag (16)`,
fails (`none`) when the input is too short or the tag does not verify. -/
def decrypt (encryptedData key : Bytes) : Option Bytes :=
  if encryptedData.length < IV_LENGTH + AUTH_TAG_LENGTH then none
  else
    let iv := encryptedData.take IV_LENGTH
    let authTag := encryptedData.drop (encryptedData.length - AUTH_TAG_LENGTH)
    let ciphertext := (encryptedData.drop IV_LENGTH).take
      (encryptedData.length - AUTH_TAG_LENGTH - IV_LENGTH)
    if gcmTag key iv ciphertext = authTag then some (gcmUncipher key iv 0 ciphertext)
    else none

/-- Modelled from the spec: gzip (`zlib`, a Node primitive).  The pipeline only
relies on gzip being a deterministic, invertible encoding whose decoder rejects
non-gzip input; we model the two-byte gzip magic header framing the data. -/
def gzipMagic : Bytes := [31, 139]

def compress (data : Bytes) : Bytes := gzipMagic ++ data

def decompress (data : Bytes) : Option Bytes :=
  if data.take 2 = gzipMagic then some (data.drop 2) else none

theorem decompress_compress (data : Bytes) : decompress (compress data) = some data := by
  simp [decompress, compress, gzipMagic, List.take, List.drop]

/-- From `crypto.ts` `encryptBackup`: compress, encrypt, prepend the
base64-decoded salt, base64-encode.  Plaintext is modelled as its UTF-8 bytes. -/
def encryptBackup (data key : Bytes) (salt : List Char) (iv : Bytes) : List Char :=
  encodeB64 (decodeB64 salt ++ encrypt (compress data) key iv)

/-- From `crypto.ts` `extractSaltFromBackup`: decode, take the first 32 bytes,
re-encode.  Never decrypts (it does not even receive a key). -/
def extractSaltFromBackup (encryptedBase64 : List Char) : List Char :=
  encodeB64 ((decodeB64 encryptedBase64).take SALT_LENGTH)

/-- From `crypto.ts` `decryptBackup`: decode, skip the 32 salt bytes, decrypt,
decompress.  Either failure propagates as `none`. -/
def decryptBackup (encryptedBase64 : List Char) (key : Bytes) : Option Bytes :=
  (decrypt ((decodeB64 encryptedBase64).drop SALT_LENGTH) key).bind decompress

/-- `decrypt` on a well-formed `iv ++ ct ++ tag` concatenation reduces to the
tag check. -/
theorem decrypt_concat (iv ct tag key : Bytes) (hiv : iv.length = 12)
    (htag : tag.length = 16) :
    decrypt (iv ++ (ct ++ tag)) key =
      if gcmTag key iv ct = tag then some (gcmUncipher key iv 0 ct) else none := by
  have hlen : (iv ++ (ct ++ tag)).length = 12 + ct.length + 16 := by
    simp [hiv, htag]; omega
  have hsplit : iv ++ (ct ++ tag) = (iv ++ ct) ++ tag := by
    rw [List.append_assoc]
  unfold decrypt
  rw [if_neg (by simp only [hlen, IV_LENGTH, AUTH_TAG_LENGTH]; omega)]
  have h1 : (iv ++ (ct ++ tag)).take IV_LENGTH = iv := List.take_left' hiv
  have h2 : (iv ++ (ct ++ tag)).drop ((iv ++ (ct ++ tag)).length - AUTH_TAG_LENGTH) = tag := by
    rw [hsplit]
    exact List.drop_left'
      (by simp only [List.length_append, hiv, htag, AUTH_TAG_LENGTH]; omega)
  have h3 : ((iv ++ (ct ++ tag)).drop IV_LENGTH).take
      ((iv ++ (ct ++ tag)).length - AUTH_TAG_LENGTH - IV_LENGTH) = ct := by
    rw [List.drop_left' (show iv.length = IV_LENGTH from hiv)]
    exact List.take_left'
      (by simp only [List.length_append, hiv, htag, AUTH_TAG_LENGTH, IV_LENGTH]; omega)
  rw [h1, h2, h3]

theorem decrypt_encrypt (data key iv : Bytes) (hiv : iv.length = 12) :
    decrypt (encrypt data key iv) key = some data := by
  unfold encrypt
  rw [decrypt_concat iv _ _ key hiv (gcmTag_length key iv _),
    if_pos rfl, gcmUncipher_gcmCipher]

/-- C1: For every plaintext byte string `p`, every 32-byte key, and every valid
base64 salt (the canonical encoding of 32 salt bytes), decrypting a sealed
backup with the same key returns the original plaintext:
`decryptBackup (encryptBackup p key salt iv) key = some p`. -/
theorem C1_backup_roundtrip (data key iv sb : Bytes)
    (hkey : key.length = KEY_LENGTH) (hiv : iv.length = IV_LENGTH)
    (hsb : sb.length = SALT_LENGTH) :
    decryptBackup (encryptBackup data key (encodeB64 sb) iv) key = some data := by
  unfold decryptBackup encryptBackup
  rw [decodeB64_encodeB64, decodeB64_encodeB64,
    List.drop_left' (show sb.length = SALT_LENGTH from hsb),
    decrypt_encrypt _ _ _ (by simpa [IV_LENGTH] using hiv)]
  simp [decompress_compress]

/-- C1 witness at a concrete input. -/
theorem C1_backup_roundtrip_witness :
    decryptBackup
      (encryptBackup [104, 105] (List.replicate 32 (7 : Byte))
        (encodeB64 (List.replicate 32 (1 : Byte))) (List.replicate 12 (3 : Byte)))
      (List.replicate 32 (7 : Byte)) = some [104, 105] :=
  C1_backup_roundtrip [104, 105] (List.replicate 32 7) (List.replicate 12 3)
    (List.replicate 32 1) (by simp [KEY_LENGTH]) (by simp [IV_LENGTH])
    (by simp [SALT_LENGTH])

/-- C3: the base64-decoded output of `encryptBackup` is exactly
`salt (32) ++ iv (12) ++ ciphertext ++ authTag (16)`, the encrypted data being
the gzip of the plaintext bytes; and `extractSaltFromBackup` returns exactly
the supplied salt without attempting decryption (its definition never uses a
key or `decrypt`). -/
theorem C3_envelope_format (data key iv sb : Bytes)
    (hkey : key.length = KEY_LENGTH) (hiv : iv.length = IV_LENGTH)
    (hsb : sb.length = SALT_LENGTH) :
    decodeB64 (encryptBackup data key (encodeB64 sb) iv) =
      sb ++ (iv ++ (gcmCipher key iv 0 (compress data) ++
        gcmTag key iv (gcmCipher key iv 0 (compress data)))) ∧
    (gcmTag key iv (gcmCipher key iv 0 (compress data))).length = AUTH_TAG_LENGTH ∧
    extractSaltFromBackup (encryptBackup data key (encodeB64 sb) iv) = encodeB64 sb := by
  refine ⟨?_, gcmTag_length _ _ _, ?_⟩
  · unfold encryptBackup encrypt
    rw [decodeB64_encodeB64, decodeB64_encodeB64]
  · unfold extractSaltFromBackup encryptBackup encrypt
    rw [decodeB64_encodeB64, decodeB64_encodeB64,
      List.take_left' (show sb.length = SALT_LENGTH from hsb)]

/-- C3 witness at a concrete input. -/
theorem C3_envelope_format_witness :
    decodeB64 (encryptBackup [65] (List.replicate 32 (9 : Byte))
        (encodeB64 (List.replicate 32 (2 : Byte))) (List.replicate 12 (4 : Byte))) =
      List.replicate 32 (2 : Byte) ++ (List.replicate 12 (4 : Byte) ++
        (gcmCipher (List.replicate 32 9) (List.replicate 12 4) 0 (compress [65]) ++
          gcmTag (List.replicate 32 9) (List.replicate 12 4)
            (gcmCipher (List.replicate 32 9) (List.replicate 12 4) 0 (compress [65])))) ∧
    (gcmTag (List.replicate 32 9) (List.replicate 12 4)
      (gcmCipher (List.replicate 32 9) (List.replicate 12 4) 0 (compress [65]))).length =
        AUTH_TAG_LENGTH ∧
    extractSaltFromBackup (encryptBackup [65] (List.replicate 32 (9 : Byte))
        (encodeB64 (List.replicate 32 (2 : Byte))) (List.replicate 12 (4 : Byte))) =
      encodeB64 (List.replicate 32 (2 : Byte)) :=
  C3_envelope_format [65] (List.replicate 32 9) (List.replicate 12 4)
    (List.replicate 32 2) (by simp [KEY_LENGTH]) (by simp [IV_LENGTH])
    (by simp [SALT_LENGTH])

/-! Tampering analysis (C2).  `decryptBackup` drops the 32 salt bytes before
decrypting, so a flip inside the salt region is invisible to the tag check. -/

theorem list_set_ne_self {α : Type*} (l : List α) (i : Nat) (x a : α)
    (hg : l[i]? = some a) (hx : x ≠ a) : l.set i x ≠ l := by
  intro hEq
  apply hx
  obtain ⟨hlt, hval⟩ := List.getElem?_eq_some_iff.mp hg
  have h1 : (l.set i x)[i]? = l[i]? := by rw [hEq]
  rw [List.getElem?_eq_getElem (show i < (l.set i x).length by simpa using hlt),
    List.getElem?_eq_getElem hlt, List.getElem_set_self] at h1
  rw [← hval]
  exact Option.some.inj h1

/-- Flipping one byte in the suffix `z` of a checksum input moves the checksum. -/
theorem chk_append_set_ne (u z : Bytes) (j : Nat) (b' a : Byte)
    (hg : z[j]? = some a) (hne : b' ≠ a) :
    chk (u ++ z.set j b') ≠ chk (u ++ z) := by
  have h1 : (u ++ z).set (u.length + j) b' = u ++ z.set j b' := by
    rw [List.set_append_right _ _ (by omega), Nat.add_sub_cancel_left]
  rw [← h1]
  apply chk_set_ne (u ++ z) (u.length + j) b' a ?_ hne
  rw [List.getElem?_append_right (by omega), Nat.add_sub_cancel_left]
  exact hg

/-- C2, corrected: flipping a single byte of the sealed envelope at any
position in the nonce, ciphertext or tag region (byte index ≥ 32) makes
`decryptBackup` fail with an authentication error; but a flip inside the 32
leading salt bytes — which `decryptBackup` skips and which are not covered by
the authentication tag — is not detected: decryption still succeeds and
returns the original plaintext. -/
theorem C2_tamper_detection_amended (data key iv sb : Bytes)
    (hiv : iv.length = IV_LENGTH) (hsb : sb.length = SALT_LENGTH)
    (p : Nat) (b' : Byte)
    (hp : p < (decodeB64 (encryptBackup data key (encodeB64 sb) iv)).length)
    (hne : (decodeB64 (encryptBackup data key (encodeB64 sb) iv))[p]? ≠ some b') :
    (SALT_LENGTH ≤ p → decryptBackup
        (encodeB64 ((decodeB64 (encryptBackup data key (encodeB64 sb) iv)).set p b'))
        key = none) ∧
    (p < SALT_LENGTH → decryptBackup
        (encodeB64 ((decodeB64 (encryptBackup data key (encodeB64 sb) iv)).set p b'))
        key = some data) := by
  simp only [IV_LENGTH, SALT_LENGTH] at hiv hsb ⊢
  have he : decodeB64 (encryptBackup data key (encodeB64 sb) iv)
      = sb ++ (iv ++ (gcmCipher key iv 0 (compress data) ++
          gcmTag key iv (gcmCipher key iv 0 (compress data)))) := by
    unfold encryptBackup encrypt
    rw [decodeB64_encodeB64, decodeB64_encodeB64]
  rw [he] at hp hne ⊢
  set ct := gcmCipher key iv 0 (compress data) with hct
  set tg := gcmTag key iv ct with htg
  have htglen : tg.length = 16 := gcmTag_length key iv ct
  have hp' : p < 32 + (12 + (ct.length + 16)) := by
    simpa [hsb, hiv, htglen] using hp
  constructor
  · intro hp32
    have hset : (sb ++ (iv ++ (ct ++ tg))).set p b'
        = sb ++ ((iv ++ (ct ++ tg)).set (p - 32) b') := by
      rw [List.set_append_right _ _ (by omega), hsb]
    rw [hset]
    unfold decryptBackup
    rw [decodeB64_encodeB64, List.drop_left' (show sb.length = SALT_LENGTH from hsb)]
    rcases Nat.lt_or_ge (p - 32) 12 with h12 | h12
    · -- flip inside the nonce
      have hs1 : (iv ++ (ct ++ tg)).set (p - 32) b' = iv.set (p - 32) b' ++ (ct ++ tg) :=
        List.set_append_left _ b' (by omega)
      rw [hs1, decrypt_concat _ _ _ _ (by simp [hiv]) htglen, if_neg, Option.none_bind]
      rw [htg]
      unfold gcmTag
      have hx : iv.set (p - 32) b' ++ ct = (iv ++ ct).set (p - 32) b' :=
        (List.set_append_left _ b' (by omega)).symm
      rw [hx]
      apply gcmTag_congr_ne
      have hb : (sb ++ (iv ++ (ct ++ tg)))[p]? = iv[p - 32]? := by
        rw [List.getElem?_append_right (by omega), hsb,
          List.getElem?_append_left (by omega)]
      obtain ⟨a, hval⟩ : ∃ a, iv[p - 32]? = some a :=
        ⟨_, List.getElem?_eq_getElem (by omega)⟩
      apply chk_append_set_ne key (iv ++ ct) (p - 32) b' a
        (by rw [List.getElem?_append_left (by omega)]; exact hval)
      intro hbe
      apply hne
      rw [hb, hval, hbe]
    · rcases Nat.lt_or_ge (p - 32) (12 + ct.length) with hctr | hctr
      · -- flip inside the ciphertext
        have hs1 : (iv ++ (ct ++ tg)).set (p - 32) b'
            = iv ++ ((ct ++ tg).set (p - 32 - 12) b') := by
          rw [List.set_append_right _ _ (by omega), hiv]
        have hs2 : (ct ++ tg).set (p - 32 - 12) b' = ct.set (p - 32 - 12) b' ++ tg :=
          List.set_append_left _ b' (by omega)
        rw [hs1, hs2, decrypt_concat _ _ _ _ hiv htglen, if_neg, Option.none_bind]
        rw [htg]
        unfold gcmTag
        rw [← List.append_assoc, ← List.append_assoc]
        apply gcmTag_congr_ne
        have hb : (sb ++ (iv ++ (ct ++ tg)))[p]? = ct[p - 32 - 12]? := by
          rw [List.getElem?_append_right (by omega), hsb,
            List.getElem?_append_right (by omega), hiv,
            List.getElem?_append_left (by omega)]
        obtain ⟨a, hval⟩ : ∃ a, ct[p - 32 - 12]? = some a :=
          ⟨_, List.getElem?_eq_getElem (by omega)⟩
        apply chk_append_set_ne (key ++ iv) ct (p - 32 - 12) b' a hval
        intro hbe
        apply hne
        rw [hb, hval, hbe]
      · -- flip inside the authentication tag
        have hs1 : (iv ++ (ct ++ tg)).set (p - 32) b'
            = iv ++ ((ct ++ tg).set (p - 32 - 12) b') := by
          rw [List.set_append_right _ _ (by omega), hiv]
        have hs2 : (ct ++ tg).set (p - 32 - 12) b'
            = ct ++ tg.set (p - 32 - 12 - ct.length) b' := by
          rw [List.set_append_right _ _ (by omega)]
        rw [hs1, hs2, decrypt_concat _ _ _ _ hiv (by simp [htglen]), if_neg,
          Option.none_bind]
        intro hEq
        rw [← htg] at hEq
        have hb : (sb ++ (iv ++ (ct ++ tg)))[p]? = tg[p - 32 - 12 - ct.length]? := by
          rw [List.getElem?_append_right (by omega), hsb,
            List.getElem?_append_right (by omega), hiv,
            List.getElem?_append_right (by omega)]
        obtain ⟨a, hval⟩ : ∃ a, tg[p - 32 - 12 - ct.length]? = some a :=
          ⟨_, List.getElem?_eq_getElem (by omega)⟩
        refine list_set_ne_self tg _ b' a hval ?_ hEq.symm
        intro hbe
        apply hne
        rw [hb, hval, hbe]
  · intro hp32
    have hset : (sb ++ (iv ++ (ct ++ tg))).set p b'
        = sb.set p b' ++ (iv ++ (ct ++ tg)) :=
      List.set_append_left _ b' (by omega)
    rw [hset]
    unfold decryptBackup
    rw [decodeB64_encodeB64,
      List.drop_left' (show (sb.set p b').length = SALT_LENGTH by
        simp [hsb, SALT_LENGTH]),
      decrypt_concat _ _ _ _ hiv htglen, if_pos htg.symm, hct,
      gcmUncipher_gcmCipher]
    simp [decompress_compress]

/-- C2 counterexample: at a concrete envelope, flipping byte 0 (a salt byte,
whose original value is 0, to 1) does not make `decryptBackup` fail — it
still returns the original plaintext, refuting the claim that flipping any
single byte, including the 32 leading salt bytes, causes an authentication
error. -/
theorem C2_counterexample :
    (decodeB64 (encryptBackup [7] (List.replicate 32 (0 : Byte))
      (encodeB64 (List.replicate 32 (0 : Byte))) (List.replicate 12 (0 : Byte)))).take 1
      = [(0 : Byte)] ∧
    decryptBackup
      (encodeB64 ((decodeB64 (encryptBackup [7] (List.replicate 32 (0 : Byte))
        (encodeB64 (List.replicate 32 (0 : Byte))) (List.replicate 12 (0 : Byte)))).set 0
          (1 : Byte)))
      (List.replicate 32 (0 : Byte)) = some [7] := by
  constructor
  · decide
  · decide

/-- C2 amended-claim witness at a concrete input: flipping byte 35 (inside the
nonce region) fails, flipping byte 0 (inside the salt) succeeds with the
original plaintext. -/
theorem C2_tamper_detection_amended_witness :
    decryptBackup
      (encodeB64 ((decodeB64 (encryptBackup [7] (List.replicate 32 (0 : Byte))
        (encodeB64 (List.replicate 32 (0 : Byte))) (List.replicate 12 (0 : Byte)))).set 35
          (9 : Byte)))
      (List.replicate 32 (0 : Byte)) = none ∧
    decryptBackup
      (encodeB64 ((decodeB64 (encryptBackup [7] (List.replicate 32 (0 : Byte))
        (encodeB64 (List.replicate 32 (0 : Byte))) (List.replicate 12 (0 : Byte)))).set 0
          (9 : Byte)))
      (List.replicate 32 (0 : Byte)) = some [7] := by
  constructor
  · exact (C2_tamper_detection_amended [7] (List.replicate 32 0) (List.replicate 12 0)
      (List.replicate 32 0) (by simp [IV_LENGTH]) (by simp [SALT_LENGTH]) 35 9
      (by decide) (by decide)).1 (by decide)
  · exact (C2_tamper_detection_amended [7] (List.replicate 32 0) (List.replicate 12 0)
      (List.replicate 32 0) (by simp [IV_LENGTH]) (by simp [SALT_LENGTH]) 0 9
      (by decide) (by decide)).2 (by decide)

/-! The filesystem scanner, from `src/core/scanner.ts`.

The filesystem is modelled as a forest of named entries: an `FsForest` is the
ordered listing of one directory (as `fs.readdir` returns it). -/

inductive FsForest : Type where
  | nil : FsForest
  | consFile (name content : String) (rest : FsForest) : FsForest
  | consDir (name : String) (sub rest : FsForest) : FsForest
  deriving DecidableEq

def SKIP_DIRS : List String :=
  ["node_modules", ".git", "vendor", "dist", "build", ".next", ".nuxt",
   "__pycache__", ".venv", "venv", "target", ".cargo"]

def PROJECT_MARKERS : List String :=
  [".git", "package.json", "pyproject.toml", "go.mod", "Cargo.toml", "composer.json"]

/-- `entry.name.startsWith(".")` on a directory entry name. -/
def hiddenName (n : String) : Bool := n.data.head? == some '.'

/-- The env-file patterns `^\.env$` and `^\.env\..+$` from `ENV_PATTERNS`. -/
def isEnvFile (n : String) : Bool :=
  n.data == ['.', 'e', 'n', 'v'] ||
    (n.data.take 5 == ['.', 'e', 'n', 'v', '.'] && decide (5 < n.data.length))

/-- The directory filter of the recursive scan loop and of `findEnvFiles`:
not on the skip list and not hidden. -/
def allowedDir (n : String) : Bool := !SKIP_DIRS.contains n && !hiddenName n

/-- The directory filter of `scanDirectory`'s top-level loop over the scan
root's immediate children: only the skip list is checked there. -/
def allowedRootDir (n : String) : Bool := !SKIP_DIRS.contains n

def entryNames : FsForest → List String
  | .nil => []
  | .consFile n _ rest => n :: entryNames rest
  | .consDir n _ rest => n :: entryNames rest

/-- `isProjectRoot`: some project marker exists as a direct entry (file or
directory — the source checks `pathExists`). -/
def isProjectRoot (f : FsForest) : Bool :=
  PROJECT_MARKERS.any fun mrk => (entryNames f).contains mrk

/-- The env-file name accumulator: `prefix ? prefix + "/" + name : name`. -/
def joinRel (pre n : String) : String := if pre = "" then n else pre ++ "/" ++ n

def relApp (pre : String) (cs : List String) : String := cs.foldl joinRel pre

/-- Modelled from the spec: SHA-256 content digest (a Node `crypto` primitive,
not code of this repository); the claims treat the checksum as an opaque
deterministic function of the content. -/
def sha256M (content : String) : String := "sha256:" ++ content

structure EnvFile where
  filename : String
  checksum : String
  content : String
  deriving DecidableEq

/-- `findEnvFiles`' inner `scanDir` (`scanner.ts` lines 89-121): collect env
files in entry order, recursing into subdirectories that pass the skip-list
and hidden-name checks — with no project-boundary check. -/
def findEnvFilesF : String → FsForest → List EnvFile
  | _, .nil => []
  | pre, .consFile n c rest =>
      (if isEnvFile n then [⟨joinRel pre n, sha256M c, c⟩] else []) ++
        findEnvFilesF pre rest
  | pre, .consDir n sub rest =>
      (if allowedDir n then findEnvFilesF (joinRel pre n) sub else []) ++
        findEnvFilesF pre rest

structure ProjectM where
  name : String
  path : String
  fingerprint : String
  envs : List EnvFile
  deriving DecidableEq

/-- Modelled from the spec: `generateFingerprint` and `getProjectName` live in
`fingerprint.js`, which is not among the sources; the scanner claims treat
project name and fingerprint as opaque functions of the project directory, so
the scan is parameterized over them. -/
structure FpMeta where
  nameOf : String → FsForest → String
  fpOf : String → FsForest → String

/-- `path.join(dirPath, entry.name)` for a normalized dir path and a plain
entry name (the only shape the scanner produces). -/
def childPath (p n : String) : String := p ++ "/" ++ n

def joinPath (p : String) : List String → String
  | [] => p
  | c :: cs => joinPath (childPath p c) cs

/-- The Project record pushed by the scanner for a project-root directory. -/
def mkProject (m : FpMeta) (path : String) (f : FsForest) : ProjectM :=
  ⟨m.nameOf path f, path, m.fpOf path f, findEnvFilesF "" f⟩

/-- The recursive `scan` loop over a non-project directory's entries
(`scanner.ts` lines 160-177): descend into directories passing the skip-list
and hidden checks; a project-root child is emitted and not descended. -/
def scanChildren (m : FpMeta) : String → FsForest → List ProjectM
  | _, .nil => []
  | p, .consFile _ _ rest => scanChildren m p rest
  | p, .consDir n sub rest =>
      (if allowedDir n then
        (if isProjectRoot sub then [mkProject m (childPath p n) sub]
         else scanChildren m (childPath p n) sub)
       else []) ++ scanChildren m p rest

/-- `scan(subPath)` for one directory. -/
def scanOne (m : FpMeta) (path : String) (f : FsForest) : List ProjectM :=
  if isProjectRoot f then [mkProject m path f] else scanChildren m path f

/-- The top-level loop of `scanDirectory` over the scan root's entries
(`scanner.ts` lines 199-213): checks only the skip list. -/
def scanRootChildren (m : FpMeta) : String → FsForest → List ProjectM
  | _, .nil => []
  | p, .consFile _ _ rest => scanRootChildren m p rest
  | p, .consDir n sub rest =>
      (if allowedRootDir n then scanOne m (childPath p n) sub else []) ++
        scanRootChildren m p rest

/-- `scanDirectory` from `scanner.ts`: if the root itself is a project it is
the only project; otherwise scan the root's children. -/
def scanDirectory (m : FpMeta) (rootPath : String) (root : FsForest) : List ProjectM :=
  if isProjectRoot root then [mkProject m rootPath root]
  else scanRootChildren m rootPath root

/-- Well-formed directory listing: entry names are plain (nonempty, no slash,
not `.` or `..`) and unique among siblings, recursively — what a real
filesystem `readdir` guarantees. -/
def validName (n : String) : Bool :=
  (n != "") && !(n.data.contains '/') && (n != ".") && (n != "..")

def wfF : FsForest → Bool
  | .nil => true
  | .consFile n _ rest => validName n && !(entryNames rest).contains n && wfF rest
  | .consDir n sub rest =>
      validName n && !(entryNames rest).contains n && wfF sub && wfF rest

/-! Location relations in a forest. -/

inductive HasDir : FsForest → String → FsForest → Prop where
  | head (n : String) (sub rest : FsForest) : HasDir (.consDir n sub rest) n sub
  | tailFile {rest : FsForest} {n : String} {sub : FsForest} (m c : String) :
      HasDir rest n sub → HasDir (.consFile m c rest) n sub
  | tailDir {rest : FsForest} {n : String} {sub : FsForest} (m : String) (s : FsForest) :
      HasDir rest n sub → HasDir (.consDir m s rest) n sub

inductive HasFile : FsForest → String → String → Prop where
  | head (n c : String) (rest : FsForest) : HasFile (.consFile n c rest) n c
  | tailFile {rest : FsForest} {n c : String} (m d : String) :
      HasFile rest n c → HasFile (.consFile m d rest) n c
  | tailDir {rest : FsForest} {n c : String} (m : String) (s : FsForest) :
      HasFile rest n c → HasFile (.consDir m s rest) n c

/-- `DirAt f cs g`: following the directory-name components `cs` from the
listing `f` reaches the listing `g`. -/
inductive DirAt : FsForest → List String → FsForest → Prop where
  | here (f : FsForest) : DirAt f [] f
  | step {f sub g : FsForest} {n : String} {cs : List String} :
      HasDir f n sub → DirAt sub cs g → DirAt f (n :: cs) g

theorem hasDir_name_mem {f : FsForest} {n : String} {sub : FsForest}
    (h : HasDir f n sub) : n ∈ entryNames f := by
  induction h <;> simp [entryNames, *]

theorem dirAt_lift_file {rest : FsForest} {cs : List String} {g : FsForest}
    (hne : cs ≠ []) (h : DirAt rest cs g) (n c : String) :
    DirAt (.consFile n c rest) cs g := by
  cases h with
  | here => exact absurd rfl hne
  | step hd htail => exact .step (.tailFile _ _ hd) htail

theorem dirAt_lift_dir {rest : FsForest} {cs : List String} {g : FsForest}
    (hne : cs ≠ []) (h : DirAt rest cs g) (n : String) (s : FsForest) :
    DirAt (.consDir n s rest) cs g := by
  cases h with
  | here => exact absurd rfl hne
  | step hd htail => exact .step (.tailDir _ _ hd) htail

/-! Completeness and soundness of the env-file search. -/

theorem findEnvFilesF_mem_file {f : FsForest} {fn cont : String} (pre : String)
    (hf : HasFile f fn cont) (henv : isEnvFile fn = true) :
    (⟨joinRel pre fn, sha256M cont, cont⟩ : EnvFile) ∈ findEnvFilesF pre f := by
  induction hf with
  | head n c rest => simp [findEnvFilesF, henv]
  | tailFile m d hf' ih => exact List.mem_append_right _ (ih henv)
  | tailDir m s hf' ih => exact List.mem_append_right _ (ih henv)

theorem findEnvFilesF_mem_of_hasDir {f sub : FsForest} {n : String}
    (hd : HasDir f n sub) (han : allowedDir n = true) (pre : String) (x : EnvFile)
    (hx : x ∈ findEnvFilesF (joinRel pre n) sub) : x ∈ findEnvFilesF pre f := by
  induction hd with
  | head n sub rest =>
      exact List.mem_append_left _ (by rwa [if_pos han])
  | tailFile m c hd' ih => exact List.mem_append_right _ (ih han hx)
  | tailDir m s hd' ih => exact List.mem_append_right _ (ih han hx)

theorem findEnvFilesF_complete {f h : FsForest} {ds : List String} {fn cont : String}
    (pre : String) (hdir : DirAt f ds h) (hall : ∀ d ∈ ds, allowedDir d = true)
    (hfile : HasFile h fn cont) (henv : isEnvFile fn = true) :
    (⟨relApp pre (ds ++ [fn]), sha256M cont, cont⟩ : EnvFile) ∈ findEnvFilesF pre f := by
  induction hdir generalizing pre with
  | here f => exact findEnvFilesF_mem_file pre hfile henv
  | @step f sub g n cs hd htail ih =>
      refine findEnvFilesF_mem_of_hasDir hd (hall n (by simp)) pre _ ?_
      exact ih (joinRel pre n) (fun d hd' => hall d (List.mem_cons_of_mem n hd')) hfile

theorem findEnvFilesF_sound (f : FsForest) (pre : String) (e : EnvFile)
    (hmem : e ∈ findEnvFilesF pre f) :
    ∃ ds h fn cont, DirAt f ds h ∧ (∀ d ∈ ds, allowedDir d = true) ∧
      HasFile h fn cont ∧ isEnvFile fn = true ∧
      e = ⟨relApp pre (ds ++ [fn]), sha256M cont, cont⟩ := by
  induction f generalizing pre with
  | nil => simp [findEnvFilesF] at hmem
  | consFile n c rest ih =>
      rcases List.mem_append.mp hmem with hL | hR
      · by_cases henv : isEnvFile n = true
        · rw [if_pos henv] at hL
          rcases List.mem_singleton.mp hL with rfl
          exact ⟨[], .consFile n c rest, n, c, .here _, by simp, .head _ _ _, henv, rfl⟩
        · rw [if_neg henv] at hL
          simp at hL
      · obtain ⟨ds, h, fn, cont, hdir, hall, hfile, henv, heq⟩ := ih pre hR
        cases ds with
        | nil =>
            cases hdir
            exact ⟨[], .consFile n c rest, fn, cont, .here _, by simp,
              .tailFile _ _ hfile, henv, heq⟩
        | cons d ds' =>
            exact ⟨d :: ds', h, fn, cont, dirAt_lift_file (by simp) hdir n c,
              hall, hfile, henv, heq⟩
  | consDir n sub rest ihsub ihrest =>
      rcases List.mem_append.mp hmem with hL | hR
      · by_cases han : allowedDir n = true
        · rw [if_pos han] at hL
          obtain ⟨ds, h, fn, cont, hdir, hall, hfile, henv, heq⟩ := ihsub (joinRel pre n) hL
          refine ⟨n :: ds, h, fn, cont, .step (.head _ _ _) hdir, ?_, hfile, henv, heq⟩
          intro d hd
          rcases List.mem_cons.mp hd with rfl | hd'
          · exact han
          · exact hall d hd'
        · rw [if_neg han] at hL
          simp at hL
      · obtain ⟨ds, h, fn, cont, hdir, hall, hfile, henv, heq⟩ := ihrest pre hR
        cases ds with
        | nil =>
            cases hdir
            exact ⟨[], .consDir n sub rest, fn, cont, .here _, by simp,
              .tailDir _ _ hfile, henv, heq⟩
        | cons d ds' =>
            exact ⟨d :: ds', h, fn, cont, dirAt_lift_dir (by simp) hdir n sub,
              hall, hfile, henv, heq⟩

/-! Soundness of the project scan: every emitted project sits at a chain of
allowed directory components, is a project root, and no proper prefix of that
chain is a project root (the scan stops at the outermost project boundary). -/

theorem scanChildren_sound (m : FpMeta) :
    ∀ (f : FsForest) (path : String) (p' : ProjectM), wfF f = true →
      p' ∈ scanChildren m path f →
      ∃ cs g, cs ≠ [] ∧ DirAt f cs g ∧ (∀ c ∈ cs, allowedDir c = true) ∧
        (∀ c ∈ cs, validName c = true) ∧ isProjectRoot g = true ∧
        p' = mkProject m (joinPath path cs) g ∧
        ∀ cs' g', cs' ≠ [] → (∃ ds, ds ≠ [] ∧ cs = cs' ++ ds) → DirAt f cs' g' →
          isProjectRoot g' = false := by
  intro f
  induction f with
  | nil => intro path p' _ hmem; simp [scanChildren] at hmem
  | consFile n c rest ih =>
      intro path p' hwf hmem
      simp only [wfF, Bool.and_eq_true] at hwf
      obtain ⟨⟨hvn, hnm⟩, hwfr⟩ := hwf
      rw [show scanChildren m path (.consFile n c rest) = scanChildren m path rest
        from rfl] at hmem
      obtain ⟨cs, g, hne, hdir, hall, hval, hroot, heq, hmin⟩ := ih path p' hwfr hmem
      refine ⟨cs, g, hne, dirAt_lift_file hne hdir n c, hall, hval, hroot, heq, ?_⟩
      rintro cs' g' hne' hpref hdir'
      cases hdir' with
      | here => exact absurd rfl hne'
      | step hd' htail' =>
          cases hd' with
          | tailFile m' c' hd'' => exact hmin _ g' hne' hpref (.step hd'' htail')
  | consDir n sub rest ihsub ihrest =>
      intro path p' hwf hmem
      simp only [wfF, Bool.and_eq_true] at hwf
      obtain ⟨⟨⟨hvn, hnm⟩, hwfs⟩, hwfr⟩ := hwf
      have hnotin : n ∉ entryNames rest := by simpa using hnm
      rcases List.mem_append.mp hmem with hL | hR
      · by_cases han : allowedDir n = true
        · rw [if_pos han] at hL
          by_cases hpr : isProjectRoot sub = true
          · rw [if_pos hpr] at hL
            rcases List.mem_singleton.mp hL with rfl
            refine ⟨[n], sub, by simp, .step (.head _ _ _) (.here _), ?_, ?_, hpr, rfl, ?_⟩
            · intro c hc; rcases List.mem_singleton.mp hc with rfl; exact han
            · intro c hc; rcases List.mem_singleton.mp hc with rfl; exact hvn
            · rintro cs' g' hne' ⟨ds, hds, hsplit⟩ _
              exfalso
              have h1 : cs'.length + ds.length = 1 := by
                have := congrArg List.length hsplit; simpa using this.symm
              have h2 := List.length_pos.mpr hne'
              have h3 := List.length_pos.mpr hds
              omega
          · rw [if_neg hpr] at hL
            obtain ⟨cs₀, g, hne₀, hdir₀, hall₀, hval₀, hroot₀, heq₀, hmin₀⟩ :=
              ihsub (childPath path n) p' hwfs hL
            refine ⟨n :: cs₀, g, by simp, .step (.head _ _ _) hdir₀, ?_, ?_,
              hroot₀, heq₀, ?_⟩
            · intro c hc; rcases List.mem_cons.mp hc with rfl | hc'
              exacts [han, hall₀ c hc']
            · intro c hc; rcases List.mem_cons.mp hc with rfl | hc'
              exacts [hvn, hval₀ c hc']
            · rintro cs' g' hne' ⟨ds, hds, hsplit⟩ hdir'
              cases cs' with
              | nil => exact absurd rfl hne'
              | cons c₀' cs₁' =>
                  rw [List.cons_append] at hsplit
                  obtain ⟨rfl, hsp₀⟩ : c₀' = n ∧ cs₀ = cs₁' ++ ds :=
                    ⟨(List.cons.inj hsplit).1.symm, (List.cons.inj hsplit).2⟩
                  cases hdir' with
                  | step hd' htail' =>
                      cases hd' with
                      | head =>
                          cases cs₁' with
                          | nil =>
                              cases htail' with
                              | here =>
                                  simp only [Bool.not_eq_true] at hpr
                                  exact hpr
                          | cons d₁ ds₁ =>
                              exact hmin₀ (d₁ :: ds₁) g' (by simp)
                                ⟨ds, hds, hsp₀⟩ htail'
                      | tailDir m' s' hd'' =>
                          exact absurd (hasDir_name_mem hd'') hnotin
        · rw [if_neg han] at hL; simp at hL
      · obtain ⟨cs, g, hne, hdir, hall, hval, hroot, heq, hmin⟩ := ihrest path p' hwfr hR
        refine ⟨cs, g, hne, dirAt_lift_dir hne hdir n sub, hall, hval, hroot, heq, ?_⟩
        rintro cs' g' hne' hpref hdir'
        obtain ⟨ds, hds, hsplit⟩ := hpref
        cases cs' with
        | nil => exact absurd rfl hne'
        | cons c₀' cs₁' =>
            cases cs with
            | nil => exact absurd rfl hne
            | cons c₀ cs₀ =>
                rw [List.cons_append] at hsplit
                have hc0 : c₀ = c₀' := (List.cons.inj hsplit).1
                have hcmem : c₀ ∈ entryNames rest := by
                  cases hdir with
                  | step hd _ => exact hasDir_name_mem hd
                cases hdir' with
                | step hd' htail' =>
                    cases hd' with
                    | head => exact absurd (hc0 ▸ hcmem) hnotin
                    | tailDir m' s' hd'' =>
                        exact hmin (c₀' :: cs₁') g' hne' ⟨ds, hds, by rw [hsplit, List.cons_append]⟩
                          (.step hd'' htail')

theorem scanRootChildren_sound (m : FpMeta) :
    ∀ (f : FsForest) (path : String) (p' : ProjectM), wfF f = true →
      p' ∈ scanRootChildren m path f →
      ∃ c₀ cs₀ g, allowedRootDir c₀ = true ∧ (∀ c ∈ cs₀, allowedDir c = true) ∧
        (∀ c ∈ c₀ :: cs₀, validName c = true) ∧
        DirAt f (c₀ :: cs₀) g ∧ isProjectRoot g = true ∧
        p' = mkProject m (joinPath path (c₀ :: cs₀)) g ∧
        ∀ cs' g', cs' ≠ [] → (∃ ds, ds ≠ [] ∧ c₀ :: cs₀ = cs' ++ ds) →
          DirAt f cs' g' → isProjectRoot g' = false := by
  intro f
  induction f with
  | nil => intro path p' _ hmem; simp [scanRootChildren] at hmem
  | consFile n c rest ih =>
      intro path p' hwf hmem
      simp only [wfF, Bool.and_eq_true] at hwf
      obtain ⟨⟨hvn, hnm⟩, hwfr⟩ := hwf
      rw [show scanRootChildren m path (.consFile n c rest) = scanRootChildren m path rest
        from rfl] at hmem
      obtain ⟨c₀, cs₀, g, h1, h2, h3, hdir, h5, h6, hmin⟩ := ih path p' hwfr hmem
      refine ⟨c₀, cs₀, g, h1, h2, h3, dirAt_lift_file (by simp) hdir n c, h5, h6, ?_⟩
      rintro cs' g' hne' hpref hdir'
      cases hdir' with
      | here => exact absurd rfl hne'
      | step hd' htail' =>
          cases hd' with
          | tailFile m' c' hd'' => exact hmin _ g' hne' hpref (.step hd'' htail')
  | consDir n sub rest ihsub ihrest =>
      intro path p' hwf hmem
      simp only [wfF, Bool.and_eq_true] at hwf
      obtain ⟨⟨⟨hvn, hnm⟩, hwfs⟩, hwfr⟩ := hwf
      have hnotin : n ∉ entryNames rest := by simpa using hnm
      rcases List.mem_append.mp hmem with hL | hR
      · by_cases han : allowedRootDir n = true
        · rw [if_pos han] at hL
          unfold scanOne at hL
          by_cases hpr : isProjectRoot sub = true
          · rw [if_pos hpr] at hL
            rcases List.mem_singleton.mp hL with rfl
            refine ⟨n, [], sub, han, by simp, ?_, .step (.head _ _ _) (.here _),
              hpr, rfl, ?_⟩
            · intro c hc; rcases List.mem_singleton.mp hc with rfl; exact hvn
            · rintro cs' g' hne' ⟨ds, hds, hsplit⟩ _
              exfalso
              have h1 : cs'.length + ds.length = 1 := by
                have := congrArg List.length hsplit; simpa using this.symm
              have h2 := List.length_pos.mpr hne'
              have h3 := List.length_pos.mpr hds
              omega
          · rw [if_neg hpr] at hL
            obtain ⟨cs₁, g, hne₁, hdir₁, hall₁, hval₁, hroot₁, heq₁, hmin₁⟩ :=
              scanChildren_sound m sub (childPath path n) p' hwfs hL
            refine ⟨n, cs₁, g, han, hall₁, ?_, .step (.head _ _ _) hdir₁,
              hroot₁, heq₁, ?_⟩
            · intro c hc; rcases List.mem_cons.mp hc with rfl | hc'
              exacts [hvn, hval₁ c hc']
            · rintro cs' g' hne' ⟨ds, hds, hsplit⟩ hdir'
              cases cs' with
              | nil => exact absurd rfl hne'
              | cons c₀' cs₁' =>
                  rw [List.cons_append] at hsplit
                  obtain ⟨rfl, hsp₀⟩ : c₀' = n ∧ cs₁ = cs₁' ++ ds :=
                    ⟨(List.cons.inj hsplit).1.symm, (List.cons.inj hsplit).2⟩
                  cases hdir' with
                  | step hd' htail' =>
                      cases hd' with
                      | head =>
                          cases cs₁' with
                          | nil =>
                              cases htail' with
                              | here =>
                                  simp only [Bool.not_eq_true] at hpr
                                  exact hpr
                          | cons d₁ ds₁ =>
                              exact hmin₁ (d₁ :: ds₁) g' (by simp)
                                ⟨ds, hds, hsp₀⟩ htail'
                      | tailDir m' s' hd'' =>
                          exact absurd (hasDir_name_mem hd'') hnotin
        · rw [if_neg han] at hL; simp at hL
      · obtain ⟨c₀, cs₀, g, h1, h2, h3, hdir, h5, h6, hmin⟩ := ihrest path p' hwfr hR
        refine ⟨c₀, cs₀, g, h1, h2, h3, dirAt_lift_dir (by simp) hdir n sub, h5, h6, ?_⟩
        rintro cs' g' hne' hpref hdir'
        obtain ⟨ds, hds, hsplit⟩ := hpref
        cases cs' with
        | nil => exact absurd rfl hne'
        | cons c₀' cs₁' =>
            rw [List.cons_append] at hsplit
            have hc0 : c₀ = c₀' := (List.cons.inj hsplit).1
            have hcmem : c₀ ∈ entryNames rest := by
              cases hdir with
              | step hd _ => exact hasDir_name_mem hd
            cases hdir' with
            | step hd' htail' =>
                cases hd' with
                | head => exact absurd (hc0 ▸ hcmem) hnotin
                | tailDir m' s' hd'' =>
                    exact hmin (c₀' :: cs₁') g' hne' ⟨ds, hds, by rw [hsplit, List.cons_append]⟩
                      (.step hd'' htail')

/-- Characterization of `scanDirectory`'s output over a well-formed tree. -/
theorem scanDirectory_sound (m : FpMeta) (rootPath : String) (root : FsForest)
    (hwf : wfF root = true) (p' : ProjectM)
    (hmem : p' ∈ scanDirectory m rootPath root) :
    ∃ cs g, DirAt root cs g ∧ isProjectRoot g = true ∧
      (∀ c ∈ cs, validName c = true) ∧
      (∀ c ∈ cs, SKIP_DIRS.contains c = false) ∧
      (∀ c ∈ cs.drop 1, hiddenName c = false) ∧
      p' = mkProject m (joinPath rootPath cs) g ∧
      ∀ cs' g', cs' ≠ [] → (∃ ds, ds ≠ [] ∧ cs = cs' ++ ds) → DirAt root cs' g' →
        isProjectRoot g' = false := by
  unfold scanDirectory at hmem
  by_cases hpr : isProjectRoot root = true
  · rw [if_pos hpr] at hmem
    rcases List.mem_singleton.mp hmem with rfl
    refine ⟨[], root, .here _, hpr, by simp, by simp, by simp, rfl, ?_⟩
    rintro cs' g' hne' ⟨ds, hds, hsplit⟩ _
    exfalso
    have h1 := congrArg List.length hsplit
    have h2 := List.length_pos.mpr hne'
    have h3 := List.length_pos.mpr hds
    simp at h1
    omega
  · rw [if_neg hpr] at hmem
    obtain ⟨c₀, cs₀, g, hroot0, hall0, hval0, hdir0, hproj0, heq0, hmin0⟩ :=
      scanRootChildren_sound m root rootPath p' hwf hmem
    refine ⟨c₀ :: cs₀, g, hdir0, hproj0, hval0, ?_, ?_, heq0, hmin0⟩
    · intro c hc
      rcases List.mem_cons.mp hc with rfl | hc'
      · simpa [allowedRootDir] using hroot0
      · have h := hall0 c hc'
        simp only [allowedDir, Bool.and_eq_true, Bool.not_eq_true'] at h
        exact h.1
    · intro c hc
      simp only [List.drop_succ_cons, List.drop_zero] at hc
      have h := hall0 c hc
      simp only [allowedDir, Bool.and_eq_true, Bool.not_eq_true'] at h
      exact h.2

/-! Path strings.  Over well-formed trees entry names contain no slash, so a
path string determines its component chain. -/

/-- `a` is strictly inside the directory `b`: `a = b ++ "/" ++ s`. -/
def strictlyInside (a b : String) : Prop := ∃ s : String, s ≠ "" ∧ a = b ++ "/" ++ s

theorem str_length_pos {s : String} (h : s ≠ "") : 0 < s.length :=
  match s, h with
  | ⟨[]⟩, h => absurd (String.ext rfl) h
  | ⟨_ :: _⟩, _ => Nat.succ_pos _

theorem not_strictlyInside_self (a : String) : ¬ strictlyInside a a := by
  rintro ⟨s, hs, h⟩
  have h1 := congrArg String.length h
  have h2 := str_length_pos hs
  have h3 : ("/" : String).length = 1 := rfl
  simp only [String.length_append, h3] at h1
  omega

def flatComps (cs : List String) : List Char := (cs.map fun c => '/' :: c.data).flatten

theorem childPath_data (p n : String) : (childPath p n).data = p.data ++ '/' :: n.data := by
  simp [childPath]

theorem joinPath_data (p : String) (cs : List String) :
    (joinPath p cs).data = p.data ++ flatComps cs := by
  induction cs generalizing p with
  | nil => simp [joinPath, flatComps]
  | cons c cs ih => simp [joinPath, flatComps, ih, childPath_data]

theorem flatComps_head (cs : List String) :
    flatComps cs = [] ∨ (flatComps cs).head? = some '/' := by
  cases cs with
  | nil => left; rfl
  | cons c cs => right; simp [flatComps]

theorem validName_no_slash {c : String} (h : validName c = true) : '/' ∉ c.data := by
  simp only [validName, Bool.and_eq_true, Bool.not_eq_true'] at h
  intro hm
  have h2 := h.1.1.2
  simp only [List.contains, List.elem_eq_mem, decide_eq_false_iff_not] at h2
  exact h2 hm

/-- Two slash-free segments followed by slash-headed (or empty) tails split a
character list uniquely. -/
theorem seg_eq : ∀ (u1 u2 v1 v2 : List Char), '/' ∉ u1 → '/' ∉ u2 →
    (v1 = [] ∨ v1.head? = some '/') → (v2 = [] ∨ v2.head? = some '/') →
    u1 ++ v1 = u2 ++ v2 → u1 = u2 ∧ v1 = v2 := by
  intro u1
  induction u1 with
  | nil =>
      intro u2 v1 v2 h1 h2 hv1 hv2 heq
      cases u2 with
      | nil => exact ⟨rfl, by simpa using heq⟩
      | cons b u2' =>
          exfalso
          simp only [List.nil_append, List.cons_append] at heq
          rcases hv1 with hv | hv
          · rw [hv] at heq
            exact List.cons_ne_nil _ _ heq.symm
          · rw [heq] at hv
            have hb : b = '/' := by simpa using hv
            exact h2 (hb ▸ List.mem_cons_self b u2')
  | cons a u1' ih =>
      intro u2 v1 v2 h1 h2 hv1 hv2 heq
      cases u2 with
      | nil =>
          exfalso
          simp only [List.nil_append, List.cons_append] at heq
          rcases hv2 with hv | hv
          · rw [hv] at heq
            exact List.cons_ne_nil _ _ heq
          · rw [← heq] at hv
            have ha : a = '/' := by simpa using hv
            exact h1 (ha ▸ List.mem_cons_self a u1')
      | cons b u2' =>
          simp only [List.cons_append, List.cons.injEq] at heq
          obtain ⟨rfl, heq'⟩ := heq
          obtain ⟨hu, hv⟩ := ih u2' v1 v2
            (fun hm => h1 (List.mem_cons_of_mem _ hm))
            (fun hm => h2 (List.mem_cons_of_mem _ hm)) hv1 hv2 heq'
          exact ⟨by rw [hu], hv⟩

theorem flatComps_extend : ∀ (cs2 cs1 : List String),
    (∀ c ∈ cs1, validName c = true) → (∀ c ∈ cs2, validName c = true) →
    ∀ (s : String), s ≠ "" →
    flatComps cs1 = flatComps cs2 ++ '/' :: s.data →
    ∃ ds, ds ≠ [] ∧ cs1 = cs2 ++ ds := by
  intro cs2
  induction cs2 with
  | nil =>
      intro cs1 hv1 hv2 s hs heq
      refine ⟨cs1, ?_, rfl⟩
      intro hnil
      rw [hnil] at heq
      simp [flatComps] at heq
  | cons c cs2' ih =>
      intro cs1 hv1 hv2 s hs heq
      cases cs1 with
      | nil =>
          exfalso
          simp [flatComps] at heq
      | cons c' cs1' =>
          have heq2 : '/' :: (c'.data ++ flatComps cs1')
              = '/' :: (c.data ++ (flatComps cs2' ++ '/' :: s.data)) := by
            simpa [flatComps, List.append_assoc] using heq
          have heq' : c'.data ++ flatComps cs1'
              = c.data ++ (flatComps cs2' ++ '/' :: s.data) :=
            (List.cons.inj heq2).2
          have htail2 : flatComps cs2' ++ '/' :: s.data = [] ∨
              (flatComps cs2' ++ '/' :: s.data).head? = some '/' := by
            cases cs2' with
            | nil => right; simp [flatComps]
            | cons d ds' => right; simp [flatComps]
          obtain ⟨hcd, hrest⟩ := seg_eq c'.data c.data _ _
            (validName_no_slash (hv1 c' (List.mem_cons_self _ _)))
            (validName_no_slash (hv2 c (List.mem_cons_self _ _)))
            (flatComps_head cs1') htail2 heq'
          obtain ⟨ds, hds, hsp⟩ := ih cs1'
            (fun x hx => hv1 x (List.mem_cons_of_mem _ hx))
            (fun x hx => hv2 x (List.mem_cons_of_mem _ hx)) s hs hrest
          exact ⟨ds, hds, by rw [String.ext hcd, hsp, List.cons_append]⟩

/-- If `joinPath r cs1` is strictly inside `joinPath r cs2` (all component
names well-formed), then `cs2` is a proper component chain of `cs1`. -/
theorem joinPath_strictlyInside {r : String} {cs1 cs2 : List String}
    (hv1 : ∀ c ∈ cs1, validName c = true) (hv2 : ∀ c ∈ cs2, validName c = true)
    (h : strictlyInside (joinPath r cs1) (joinPath r cs2)) :
    ∃ ds, ds ≠ [] ∧ cs1 = cs2 ++ ds := by
  obtain ⟨s, hs, heq⟩ := h
  have hdata := congrArg String.data heq
  rw [joinPath_data, String.data_append, String.data_append, joinPath_data] at hdata
  have hflat : flatComps cs1 = flatComps cs2 ++ '/' :: s.data := by
    have := hdata
    rw [List.append_assoc, List.append_assoc] at this
    have h2 := List.append_cancel_left this
    simpa using h2
  exact flatComps_extend cs2 cs1 hv1 hv2 s hs hflat

/-- C7: over a well-formed tree, `scanDirectory` never emits a Project whose
path lies strictly inside another emitted Project's path (the scan stops at
the outermost project boundary); and the env-file search of an emitted
project does recurse through its entire subtree, so an env file under a
nested project directory (whose components pass the deny-list and
hidden-directory checks) is collected into the outer project's `envs`. -/
theorem C7_no_nested_projects (m : FpMeta) (rootPath : String) (root : FsForest)
    (hwf : wfF root = true) :
    (∀ p1 ∈ scanDirectory m rootPath root, ∀ p2 ∈ scanDirectory m rootPath root,
      ¬ strictlyInside p1.path p2.path) ∧
    (∀ (path : String) (g : FsForest) (ds : List String) (h : FsForest)
        (fn cont : String), DirAt g ds h → (∀ d ∈ ds, allowedDir d = true) →
      isProjectRoot h = true → HasFile h fn cont → isEnvFile fn = true →
      (⟨relApp "" (ds ++ [fn]), sha256M cont, cont⟩ : EnvFile) ∈
        (mkProject m path g).envs) := by
  constructor
  · intro p1 h1 p2 h2 hsi
    obtain ⟨cs1, g1, hdir1, hproj1, hval1, _, _, heq1, hmin1⟩ :=
      scanDirectory_sound m rootPath root hwf p1 h1
    obtain ⟨cs2, g2, hdir2, hproj2, hval2, _, _, heq2, _⟩ :=
      scanDirectory_sound m rootPath root hwf p2 h2
    have hp1 : p1.path = joinPath rootPath cs1 := by rw [heq1]; rfl
    have hp2 : p2.path = joinPath rootPath cs2 := by rw [heq2]; rfl
    rw [hp1, hp2] at hsi
    obtain ⟨ds, hds, hsplit⟩ := joinPath_strictlyInside hval1 hval2 hsi
    cases cs2 with
    | nil =>
        have hg2 : g2 = root := by cases hdir2; rfl
        have hroot : isProjectRoot root = true := hg2 ▸ hproj2
        have h1' : p1 = mkProject m rootPath root := by
          unfold scanDirectory at h1
          rw [if_pos hroot] at h1
          exact List.mem_singleton.mp h1
        have hpr : p1.path = rootPath := by rw [h1']; rfl
        rw [← hp1, hpr] at hsi
        exact not_strictlyInside_self rootPath (by simpa [joinPath] using hsi)
    | cons a as =>
        have := hmin1 (a :: as) g2 (by simp) ⟨ds, hds, hsplit⟩ hdir2
        rw [hproj2] at this
        simp at this
  · intro path g ds h fn cont hdir hall hproj hfile henv
    exact findEnvFilesF_complete "" hdir hall hfile henv

/-- C9: over a well-formed tree, every Project emitted by `scanDirectory`
sits at a component chain avoiding every deny-listed directory name, and
every SecretFile it carries likewise sits (within the project) under
directories avoiding the deny list — nothing is ever emitted or collected
from inside a deny-listed directory, at any depth including directly under
the scan root. -/
theorem C9_skip_list (m : FpMeta) (rootPath : String) (root : FsForest)
    (hwf : wfF root = true) (p' : ProjectM)
    (hmem : p' ∈ scanDirectory m rootPath root) :
    ∃ cs g, DirAt root cs g ∧ (∀ c ∈ cs, SKIP_DIRS.contains c = false) ∧
      p' = mkProject m (joinPath rootPath cs) g ∧
      p'.envs = findEnvFilesF "" g ∧
      ∀ e ∈ p'.envs, ∃ ds h fn cont, DirAt g ds h ∧ HasFile h fn cont ∧
        (∀ d ∈ ds, SKIP_DIRS.contains d = false) ∧ isEnvFile fn = true ∧
        e = ⟨relApp "" (ds ++ [fn]), sha256M cont, cont⟩ := by
  obtain ⟨cs, g, hdir, hproj, hval, hskip, hhid, heq, hmin⟩ :=
    scanDirectory_sound m rootPath root hwf p' hmem
  have henvs : p'.envs = findEnvFilesF "" g := by rw [heq]; rfl
  refine ⟨cs, g, hdir, hskip, heq, henvs, ?_⟩
  intro e he
  rw [henvs] at he
  obtain ⟨ds, h, fn, cont, hdir', hall', hfile', henv', heq'⟩ :=
    findEnvFilesF_sound g "" e he
  refine ⟨ds, h, fn, cont, hdir', hfile', ?_, henv', heq'⟩
  intro d hd
  have := hall' d hd
  simp only [allowedDir, Bool.and_eq_true, Bool.not_eq_true'] at this
  exact this.1

/-- C9 witness: a concrete tree whose root is a project containing a
deny-listed `node_modules` directory (with an env file inside that is not
collected) and a top-level env file that is collected. -/
theorem C9_skip_list_witness :
    ∃ cs g, DirAt
        (.consFile "package.json" "{}"
          (.consDir "node_modules" (.consFile ".env" "S" .nil)
            (.consFile ".env" "K=1" .nil))) cs g ∧
      (∀ c ∈ cs, SKIP_DIRS.contains c = false) ∧
      mkProject ⟨fun p _ => p, fun p _ => p⟩ "r"
          (.consFile "package.json" "{}"
            (.consDir "node_modules" (.consFile ".env" "S" .nil)
              (.consFile ".env" "K=1" .nil))) =
        mkProject ⟨fun p _ => p, fun p _ => p⟩ (joinPath "r" cs) g ∧
      (mkProject ⟨fun p _ => p, fun p _ => p⟩ "r"
          (.consFile "package.json" "{}"
            (.consDir "node_modules" (.consFile ".env" "S" .nil)
              (.consFile ".env" "K=1" .nil)))).envs = findEnvFilesF "" g ∧
      ∀ e ∈ (mkProject ⟨fun p _ => p, fun p _ => p⟩ "r"
          (.consFile "package.json" "{}"
            (.consDir "node_modules" (.consFile ".env" "S" .nil)
              (.consFile ".env" "K=1" .nil)))).envs,
        ∃ ds h fn cont, DirAt g ds h ∧ HasFile h fn cont ∧
          (∀ d ∈ ds, SKIP_DIRS.contains d = false) ∧ isEnvFile fn = true ∧
          e = ⟨relApp "" (ds ++ [fn]), sha256M cont, cont⟩ :=
  C9_skip_list ⟨fun p _ => p, fun p _ => p⟩ "r"
    (.consFile "package.json" "{}"
      (.consDir "node_modules" (.consFile ".env" "S" .nil)
        (.consFile ".env" "K=1" .nil)))
    (by decide)
    (mkProject ⟨fun p _ => p, fun p _ => p⟩ "r"
      (.consFile "package.json" "{}"
        (.consDir "node_modules" (.consFile ".env" "S" .nil)
          (.consFile ".env" "K=1" .nil))))
    (by simp [scanDirectory, isProjectRoot, PROJECT_MARKERS, entryNames])

/-- Trivial project metadata used for concrete evaluations: both the name and
the fingerprint are the project path. -/
def mEx : FpMeta := ⟨fun p _ => p, fun p _ => p⟩

/-- A root that is itself a project, with a nested project directory `inner`
holding an env file. -/
def treeNested : FsForest :=
  .consFile "package.json" "x"
    (.consDir "inner"
      (.consFile "package.json" "y" (.consFile ".env" "X=1" .nil)) .nil)

/-- C7 witness at a concrete tree: the scan emits no nested pair, and the env
file inside the nested project directory `inner` is collected into the outer
project. -/
theorem C7_no_nested_projects_witness :
    relApp "" (["inner"] ++ [".env"]) = "inner/.env" ∧
    (⟨relApp "" (["inner"] ++ [".env"]), sha256M "X=1", "X=1"⟩ : EnvFile) ∈
      (mkProject mEx "r" treeNested).envs ∧
    (∀ p1 ∈ scanDirectory mEx "r" treeNested, ∀ p2 ∈ scanDirectory mEx "r" treeNested,
      ¬ strictlyInside p1.path p2.path) := by
  have h := C7_no_nested_projects mEx "r" treeNested (by decide)
  refine ⟨by decide, ?_, h.1⟩
  exact h.2 "r" treeNested ["inner"]
    (.consFile "package.json" "y" (.consFile ".env" "X=1" .nil)) ".env" "X=1"
    (.step (.tailFile _ _ (.head _ _ _)) (.here _))
    (by decide) (by decide) (.tailFile _ _ (.head _ _ _)) (by decide)

/-- A scan root whose only entry is a hidden directory `.h` that is a project
root with an env file. -/
def treeHidden : FsForest :=
  .consDir ".h" (.consFile "package.json" "{}" (.consFile ".env" "A=1" .nil)) .nil

/-- C8 counterexample: on a well-formed tree whose root has a hidden immediate
child `.h` containing a project, `scanDirectory` does descend into the hidden
directory (its top-level loop checks only the deny list) and emits a Project,
with a SecretFile, from inside it — refuting the claim that the hidden-name
skip holds at every level including the root's immediate children. -/
theorem C8_counterexample :
    wfF treeHidden = true ∧ hiddenName ".h" = true ∧
    scanDirectory mEx "r" treeHidden =
      [⟨childPath "r" ".h", childPath "r" ".h", childPath "r" ".h",
        [⟨".env", sha256M "A=1", "A=1"⟩]⟩] := by
  refine ⟨by decide, by decide, by decide⟩

/-- C8, corrected: the hidden-directory skip holds at every level of the
recursive scan *below* the root's immediate children, and at every level of
the env-file search — but not for the scan root's immediate children, whose
loop filters only by the deny list.  Every emitted project's component chain
has non-hidden components after the first (the first may be hidden), and
every collected env file sits under non-hidden directories inside its
project. -/
theorem C8_hidden_skip_amended (m : FpMeta) (rootPath : String) (root : FsForest)
    (hwf : wfF root = true) (p' : ProjectM)
    (hmem : p' ∈ scanDirectory m rootPath root) :
    ∃ cs g, DirAt root cs g ∧ (∀ c ∈ cs.drop 1, hiddenName c = false) ∧
      p' = mkProject m (joinPath rootPath cs) g ∧
      p'.envs = findEnvFilesF "" g ∧
      ∀ e ∈ p'.envs, ∃ ds h fn cont, DirAt g ds h ∧ HasFile h fn cont ∧
        (∀ d ∈ ds, hiddenName d = false) ∧ isEnvFile fn = true ∧
        e = ⟨relApp "" (ds ++ [fn]), sha256M cont, cont⟩ := by
  obtain ⟨cs, g, hdir, hproj, hval, hskip, hhid, heq, hmin⟩ :=
    scanDirectory_sound m rootPath root hwf p' hmem
  have henvs : p'.envs = findEnvFilesF "" g := by rw [heq]; rfl
  refine ⟨cs, g, hdir, hhid, heq, henvs, ?_⟩
  intro e he
  rw [henvs] at he
  obtain ⟨ds, h, fn, cont, hdir', hall', hfile', henv', heq'⟩ :=
    findEnvFilesF_sound g "" e he
  refine ⟨ds, h, fn, cont, hdir', hfile', ?_, henv', heq'⟩
  intro d hd
  have := hall' d hd
  simp only [allowedDir, Bool.and_eq_true, Bool.not_eq_true'] at this
  exact this.2

/-- C8 amended-claim witness at the concrete hidden-child tree. -/
theorem C8_hidden_skip_amended_witness :
    ∃ cs g, DirAt treeHidden cs g ∧ (∀ c ∈ cs.drop 1, hiddenName c = false) ∧
      (⟨childPath "r" ".h", childPath "r" ".h", childPath "r" ".h",
        [⟨".env", sha256M "A=1", "A=1"⟩]⟩ : ProjectM) =
        mkProject mEx (joinPath "r" cs) g ∧
      (⟨childPath "r" ".h", childPath "r" ".h", childPath "r" ".h",
        [⟨".env", sha256M "A=1", "A=1"⟩]⟩ : ProjectM).envs = findEnvFilesF "" g ∧
      ∀ e ∈ (⟨childPath "r" ".h", childPath "r" ".h", childPath "r" ".h",
        [⟨".env", sha256M "A=1", "A=1"⟩]⟩ : ProjectM).envs,
        ∃ ds h fn cont, DirAt g ds h ∧ HasFile h fn cont ∧
          (∀ d ∈ ds, hiddenName d = false) ∧ isEnvFile fn = true ∧
          e = ⟨relApp "" (ds ++ [fn]), sha256M cont, cont⟩ :=
  C8_hidden_skip_amended mEx "r" treeHidden (by decide)
    ⟨childPath "r" ".h", childPath "r" ".h", childPath "r" ".h",
      [⟨".env", sha256M "A=1", "A=1"⟩]⟩ (by decide)

/-! The restore command, from `src/commands/restore.ts`. -/

structure BackupProjectM where
  id : String
  name : String
  git : Option String
  fingerprint : String
  path : String
  envs : List EnvFile
  deriving DecidableEq

/-- Modelled from the spec / Node `path.join` (POSIX): split on `/`, drop
empty and `.` segments, resolve `..` against a segment stack (an absolute
path discards leading `..`), re-join. -/
def splitSlash : List Char → List (List Char)
  | [] => [[]]
  | c :: cs =>
      let r := splitSlash cs
      if c = '/' then [] :: r
      else
        match r with
        | s :: ss => (c :: s) :: ss
        | [] => [[c]]

def normSegs (isAbs : Bool) (segs : List (List Char)) : List (List Char) :=
  segs.foldl
    (fun stack s =>
      if s = [] ∨ s = ['.'] then stack
      else if s = ['.', '.'] then
        if stack ≠ [] ∧ stack.getLast? ≠ some ['.', '.'] then stack.dropLast
        else if isAbs then stack else stack ++ [s]
      else stack ++ [s]) []

def nodeNormalize (s : String) : String :=
  let isAbs := s.data.head? == some '/'
  let stack := normSegs isAbs (splitSlash s.data)
  if isAbs then String.mk ('/' :: List.intercalate ['/'] stack)
  else if stack = [] then "."
  else String.mk (List.intercalate ['/'] stack)

def nodePathJoin (a b : String) : String :=
  if a = "" then (if b = "" then "." else nodeNormalize b)
  else if b = "" then nodeNormalize a
  else nodeNormalize (a ++ "/" ++ b)

/-- The local filesystem during restore: per path, an optional
(content, mode) pair. -/
structure FileSys where
  files : String → Option (String × Nat)

structure RestoreStats where
  restored : Nat
  skipped : Nat
  failed : Nat
  deriving DecidableEq

/-- Modelled from the spec: `pathExists` from `utils/fs.js`. -/
def pathExists (fs : FileSys) (p : String) : Bool := (fs.files p).isSome

/-- One iteration of the per-file restore loop (`restore.ts` lines 171-191):
destination is `path.join(localPath, envFile.filename)`; if it exists and
force is not set, count skipped; otherwise attempt the write
(`writeFileContent(filePath, content, 0o600)`, modelled from the spec as
setting the path to the content with mode `0o600`, the failure oracle `werr`
standing for the caught I/O error) and count restored or failed. -/
def processFile (werr : String → Bool) (force : Bool) (localPath : String)
    (e : EnvFile) (fs : FileSys) (st : RestoreStats) : FileSys × RestoreStats :=
  let filePath := nodePathJoin localPath e.filename
  if pathExists fs filePath && !force then
    (fs, { st with skipped := st.skipped + 1 })
  else if werr filePath then
    (fs, { st with failed := st.failed + 1 })
  else
    (⟨fun q => if q = filePath then some (e.content, 0o600) else fs.files q⟩,
     { st with restored := st.restored + 1 })

def restoreEnvs (werr : String → Bool) (force : Bool) (localPath : String)
    (envs : List EnvFile) (acc : FileSys × RestoreStats) : FileSys × RestoreStats :=
  envs.foldl (fun acc e => processFile werr force localPath e acc.1 acc.2) acc

/-- The full per-project, per-file restore loop (`restore.ts` lines 169-192). -/
def restoreFiles (werr : String → Bool) (force : Bool)
    (matched : List (BackupProjectM × String)) (fs : FileSys) (st : RestoreStats) :
    FileSys × RestoreStats :=
  matched.foldl (fun acc pr => restoreEnvs werr force pr.2 pr.1.envs acc) (fs, st)

/-- C4: during restore, if the destination (the project's local path joined
with the backup filename) exists and force is not set, the file is counted
skipped and the filesystem is left untouched (existing content byte-identical,
no write); otherwise, provided the write does not fail, the backup content is
written at that destination with owner-only mode `0o600`, all other paths are
unchanged, and the file is counted restored. -/
theorem C4_skip_or_write (werr : String → Bool) (force : Bool) (localPath : String)
    (e : EnvFile) (fs : FileSys) (st : RestoreStats) :
    (pathExists fs (nodePathJoin localPath e.filename) = true → force = false →
      processFile werr force localPath e fs st =
        (fs, { st with skipped := st.skipped + 1 })) ∧
    ((pathExists fs (nodePathJoin localPath e.filename) = false ∨ force = true) →
      werr (nodePathJoin localPath e.filename) = false →
      (processFile werr force localPath e fs st).1.files
          (nodePathJoin localPath e.filename) = some (e.content, 0o600) ∧
      (∀ q, q ≠ nodePathJoin localPath e.filename →
        (processFile werr force localPath e fs st).1.files q = fs.files q) ∧
      (processFile werr force localPath e fs st).2 =
        { st with restored := st.restored + 1 }) := by
  constructor
  · intro h1 h2
    simp [processFile, h1, h2]
  · intro h1 h2
    rcases h1 with h1 | h1
    · refine ⟨by simp [processFile, h1, h2], ?_, by simp [processFile, h1, h2]⟩
      intro q hq
      simp [processFile, h1, h2, hq]
    · refine ⟨by simp [processFile, h1, h2], ?_, by simp [processFile, h1, h2]⟩
      intro q hq
      simp [processFile, h1, h2, hq]

def fsEx : FileSys := ⟨fun q => if q = "/p/.env" then some ("OLD", 0o600) else none⟩

/-- C4 witness at concrete inputs: an existing `/p/.env` is skipped untouched;
a fresh `/p/.env.local` is written with mode `0o600`. -/
theorem C4_skip_or_write_witness :
    processFile (fun _ => false) false "/p" ⟨".env", "c", "NEW"⟩ fsEx ⟨0, 0, 0⟩ =
      (fsEx, ⟨0, 1, 0⟩) ∧
    (processFile (fun _ => false) false "/p" ⟨".env.local", "c", "NEW"⟩ fsEx
        ⟨0, 0, 0⟩).1.files (nodePathJoin "/p" ".env.local") = some ("NEW", 0o600) := by
  constructor
  · exact (C4_skip_or_write (fun _ => false) false "/p" ⟨".env", "c", "NEW"⟩ fsEx
      ⟨0, 0, 0⟩).1 (by decide) rfl
  · exact ((C4_skip_or_write (fun _ => false) false "/p" ⟨".env.local", "c", "NEW"⟩ fsEx
      ⟨0, 0, 0⟩).2 (Or.inl (by decide)) rfl).1

def statsTotal (st : RestoreStats) : Nat := st.restored + st.skipped + st.failed

theorem processFile_total (werr : String → Bool) (force : Bool) (lp : String)
    (e : EnvFile) (fs : FileSys) (st : RestoreStats) :
    statsTotal (processFile werr force lp e fs st).2 = statsTotal st + 1 := by
  unfold processFile
  dsimp only
  split_ifs <;> simp [statsTotal] <;> omega

theorem restoreEnvs_total (werr : String → Bool) (force : Bool) (lp : String) :
    ∀ (envs : List EnvFile) (acc : FileSys × RestoreStats),
      statsTotal (restoreEnvs werr force lp envs acc).2 = statsTotal acc.2 + envs.length := by
  intro envs
  induction envs with
  | nil => intro acc; rfl
  | cons e es ih =>
      intro acc
      have h1 : restoreEnvs werr force lp (e :: es) acc =
          restoreEnvs werr force lp es (processFile werr force lp e acc.1 acc.2) := rfl
      rw [h1, ih, processFile_total]
      simp
      omega

theorem restoreFiles_total (werr : String → Bool) (force : Bool) :
    ∀ (matched : List (BackupProjectM × String)) (fs : FileSys) (st : RestoreStats),
      statsTotal (restoreFiles werr force matched fs st).2 =
        statsTotal st + (matched.map fun pr => pr.1.envs.length).sum := by
  intro matched
  induction matched with
  | nil => intro fs st; simp [restoreFiles, statsTotal]
  | cons pr rest ih =>
      intro fs st
      have h1 : restoreFiles werr force (pr :: rest) fs st =
          restoreFiles werr force rest
            (restoreEnvs werr force pr.2 pr.1.envs (fs, st)).1
            (restoreEnvs werr force pr.2 pr.1.envs (fs, st)).2 := rfl
      rw [h1, ih, restoreEnvs_total]
      simp
      omega

/-- C6: restore is partial-failure tolerant and counts every env file of
every matched project exactly once — restored + skipped + failed equals the
total number of env files across matched projects; a failing write changes
nothing but that file's `failed` count (the filesystem is untouched); and
processing a list of matched projects is the sequential composition of its
parts, so a failure never prevents the remaining files and projects from
being processed. -/
theorem C6_failure_isolation (werr : String → Bool) (force : Bool)
    (matched : List (BackupProjectM × String)) (fs : FileSys) :
    ((restoreFiles werr force matched fs ⟨0, 0, 0⟩).2.restored +
      (restoreFiles werr force matched fs ⟨0, 0, 0⟩).2.skipped +
      (restoreFiles werr force matched fs ⟨0, 0, 0⟩).2.failed =
        (matched.map fun pr => pr.1.envs.length).sum) ∧
    (∀ (lp : String) (e : EnvFile) (fs' : FileSys) (st' : RestoreStats),
      werr (nodePathJoin lp e.filename) = true →
      (pathExists fs' (nodePathJoin lp e.filename) = false ∨ force = true) →
      processFile werr force lp e fs' st' =
        (fs', { st' with failed := st'.failed + 1 })) ∧
    (∀ (m1 m2 : List (BackupProjectM × String)) (fs0 : FileSys) (st0 : RestoreStats),
      restoreFiles werr force (m1 ++ m2) fs0 st0 =
        restoreFiles werr force m2 (restoreFiles werr force m1 fs0 st0).1
          (restoreFiles werr force m1 fs0 st0).2) := by
  refine ⟨?_, ?_, ?_⟩
  · have h := restoreFiles_total werr force matched fs ⟨0, 0, 0⟩
    simpa [statsTotal] using h
  · intro lp e fs' st' h1 h2
    rcases h2 with h2 | h2 <;> simp [processFile, h1, h2]
  · intro m1 m2 fs0 st0
    simp [restoreFiles, List.foldl_append]

def matchedEx : List (BackupProjectM × String) :=
  [(⟨"i1", "p1", none, "f1", "/o1", [⟨".env", "c", "A"⟩]⟩, "/p1"),
   (⟨"i2", "p2", none, "f2", "/o2", [⟨".env", "c", "B"⟩]⟩, "/p2")]

/-- C6 witness: with a write oracle failing exactly on `/p1/.env`, the two
matched single-file projects still account for both files, and the failing
step touches nothing but the `failed` counter. -/
theorem C6_failure_isolation_witness :
    ((restoreFiles (fun q => q == "/p1/.env") false matchedEx ⟨fun _ => none⟩
        ⟨0, 0, 0⟩).2.restored +
      (restoreFiles (fun q => q == "/p1/.env") false matchedEx ⟨fun _ => none⟩
        ⟨0, 0, 0⟩).2.skipped +
      (restoreFiles (fun q => q == "/p1/.env") false matchedEx ⟨fun _ => none⟩
        ⟨0, 0, 0⟩).2.failed =
        (matchedEx.map fun pr => pr.1.envs.length).sum) ∧
    processFile (fun q => q == "/p1/.env") false "/p1" ⟨".env", "c", "A"⟩
        ⟨fun _ => none⟩ ⟨0, 0, 0⟩ = (⟨fun _ => none⟩, ⟨0, 0, 1⟩) := by
  have h := C6_failure_isolation (fun q => q == "/p1/.env") false matchedEx ⟨fun _ => none⟩
  exact ⟨h.1, h.2.1 "/p1" ⟨".env", "c", "A"⟩ ⟨fun _ => none⟩ ⟨0, 0, 0⟩ (by decide)
    (Or.inl (by decide))⟩

/-- Is `dest` equal to or beneath the directory `base`? -/
def insideOf (dest base : String) : Bool :=
  dest == base || dest.data.take (base.data.length + 1) == base.data ++ ['/']

def bpTraversal : BackupProjectM :=
  ⟨"id1", "p", none, "fp", "/orig/p", [⟨"../../../etc/hacked", "c", "SECRET"⟩]⟩

/-- C10: the restore destination is exactly `path.join(localPath, filename)`
with no containment validation, so a backup env filename containing `..`
segments escapes the project directory: for this concrete matched project the
file is written to `/etc/hacked`, outside `/home/user/proj`. -/
theorem C10_path_traversal :
    nodePathJoin "/home/user/proj" "../../../etc/hacked" = "/etc/hacked" ∧
    insideOf "/etc/hacked" "/home/user/proj" = false ∧
    (restoreFiles (fun _ => false) false [(bpTraversal, "/home/user/proj")]
        ⟨fun _ => none⟩ ⟨0, 0, 0⟩).1.files "/etc/hacked" = some ("SECRET", 0o600) := by
  refine ⟨by decide, by decide, by decide⟩

/-! The restore matcher: `buildFingerprintMap` from `scanner.ts` and the
matching loop of `restoreCommand`. -/

/-- One JS `Map.set`: later writes overwrite earlier ones. -/
def mapSet (mp : String → Option String) (k v : String) : String → Option String :=
  fun q => if q = k then some v else mp q

/-- `buildFingerprintMap` from `scanner.ts`: a `Map` built by successive
`set fingerprint path` calls, modelled by its lookup function (`get` is the
only operation the restore command uses). -/
def buildFingerprintMap (projects : List ProjectM) : String → Option String :=
  projects.foldl (fun mp pr => mapSet mp pr.fingerprint pr.path) fun _ => none

/-- The matching loop of `restoreCommand` (`restore.ts` lines 122-129),
including the JS truthiness test `if (localPath)`: an empty-string path is
treated as a miss. -/
def matchProjects (bps : List BackupProjectM) (mp : String → Option String) :
    List (BackupProjectM × String) × List BackupProjectM :=
  match bps with
  | [] => ([], [])
  | bp :: rest =>
      let r := matchProjects rest mp
      match mp bp.fingerprint with
      | some lp => if lp = "" then (r.1, bp :: r.2) else ((bp, lp) :: r.1, r.2)
      | none => (r.1, bp :: r.2)

theorem buildFingerprintMap_get (projects : List ProjectM) (k : String) :
    buildFingerprintMap projects k =
      ((projects.filter fun q => q.fingerprint == k).getLast?).map ProjectM.path := by
  induction projects using List.reverseRecOn with
  | nil => rfl
  | append_singleton l q ih =>
      have h1 : buildFingerprintMap (l ++ [q]) =
          mapSet (buildFingerprintMap l) q.fingerprint q.path := by
        simp [buildFingerprintMap, List.foldl_append]
      rw [h1, List.filter_append]
      by_cases hk : k = q.fingerprint
      · have hq : (([q] : List ProjectM).filter fun r => r.fingerprint == k) = [q] := by
          simp [List.filter, hk]
        rw [hq, List.getLast?_concat]
        simp [mapSet, hk]
      · have hq : (([q] : List ProjectM).filter fun r => r.fingerprint == k) = [] := by
          have hbeq : (q.fingerprint == k) = false := by
            simp only [beq_eq_false_iff_ne, ne_eq]
            exact fun h => hk h.symm
          simp [List.filter, hbeq]
        rw [hq, List.append_nil, ← ih]
        simp [mapSet, hk]

theorem matchProjects_mem_fst (mp : String → Option String) :
    ∀ (bps : List BackupProjectM) (bp : BackupProjectM) (lp : String),
      (bp, lp) ∈ (matchProjects bps mp).1 →
      mp bp.fingerprint = some lp ∧ lp ≠ "" := by
  intro bps
  induction bps with
  | nil => intro bp lp h; simp [matchProjects] at h
  | cons b rest ih =>
      intro bp lp h
      simp only [matchProjects] at h
      cases hm : mp b.fingerprint with
      | none =>
          simp only [hm] at h
          exact ih bp lp h
      | some v =>
          simp only [hm] at h
          by_cases hv : v = ""
          · rw [if_pos hv] at h
            exact ih bp lp h
          · rw [if_neg hv] at h
            rcases List.mem_cons.mp h with heq | htail
            · obtain ⟨rfl, rfl⟩ : bp = b ∧ lp = v := Prod.mk.inj heq
              exact ⟨hm, hv⟩
            · exact ih bp lp htail

theorem matchProjects_hit_mem (mp : String → Option String) :
    ∀ (bps : List BackupProjectM) (bp : BackupProjectM) (lp : String),
      bp ∈ bps → mp bp.fingerprint = some lp → lp ≠ "" →
      (bp, lp) ∈ (matchProjects bps mp).1 := by
  intro bps
  induction bps with
  | nil => intro bp lp h; simp at h
  | cons b rest ih =>
      intro bp lp hmem hget hne
      simp only [matchProjects]
      rcases List.mem_cons.mp hmem with rfl | htail
      · simp only [hget]
        rw [if_neg hne]
        exact List.mem_cons_self _ _
      · cases hm : mp b.fingerprint with
        | none =>
            simp only [hm]
            exact ih bp lp htail hget hne
        | some v =>
            simp only [hm]
            by_cases hv : v = ""
            · rw [if_pos hv]
              exact ih bp lp htail hget hne
            · rw [if_neg hv]
              exact List.mem_cons_of_mem _ (ih bp lp htail hget hne)

theorem matchProjects_count (mp : String → Option String) (bp : BackupProjectM) :
    ∀ bps : List BackupProjectM,
      ((matchProjects bps mp).1.map Prod.fst).count bp +
        (matchProjects bps mp).2.count bp = bps.count bp := by
  intro bps
  induction bps with
  | nil => rfl
  | cons b rest ih =>
      simp only [matchProjects]
      cases hm : mp b.fingerprint with
      | none =>
          simp only [hm, List.count_cons]
          omega
      | some v =>
          simp only [hm]
          by_cases hv : v = ""
          · rw [if_pos hv]
            simp only [List.count_cons]
            omega
          · rw [if_neg hv]
            simp only [List.map_cons, List.count_cons]
            omega

/-- C5: the restore matcher partitions the backup's projects — a backup
project is matched exactly when its fingerprint digest is a key of the map
built from the local scan; the matched path is the path of the *last* local
project with that digest (JS `Map.set` is last-write-wins); and every backup
project lands in exactly one of the two partitions.  The hypothesis that
local paths are nonempty reflects the scanner (paths are rooted at `cwd`):
the JS truthiness test `if (localPath)` would treat an empty path as a miss. -/
theorem C5_matcher (bps : List BackupProjectM) (lps : List ProjectM)
    (hne : ∀ q ∈ lps, q.path ≠ "") :
    (∀ bp ∈ bps,
      (∃ lp, (bp, lp) ∈ (matchProjects bps (buildFingerprintMap lps)).1) ↔
        ∃ q ∈ lps, q.fingerprint = bp.fingerprint) ∧
    (∀ bp lp, (bp, lp) ∈ (matchProjects bps (buildFingerprintMap lps)).1 →
      ∃ q, (lps.filter fun q => q.fingerprint == bp.fingerprint).getLast? = some q ∧
        lp = q.path) ∧
    (∀ bp, ((matchProjects bps (buildFingerprintMap lps)).1.map Prod.fst).count bp +
      (matchProjects bps (buildFingerprintMap lps)).2.count bp = bps.count bp) := by
  have hlast : ∀ (k : String) (q : ProjectM),
      (lps.filter fun r => r.fingerprint == k).getLast? = some q →
      q ∈ lps ∧ q.fingerprint = k := by
    intro k q hq
    have hqmem := List.mem_of_getLast?_eq_some hq
    have := List.mem_filter.mp hqmem
    exact ⟨this.1, by simpa using this.2⟩
  refine ⟨?_, ?_, fun bp => matchProjects_count _ bp bps⟩
  · intro bp hbp
    constructor
    · rintro ⟨lp, hlp⟩
      obtain ⟨hget, hlpne⟩ := matchProjects_mem_fst _ bps bp lp hlp
      rw [buildFingerprintMap_get] at hget
      cases hq : (lps.filter fun r => r.fingerprint == bp.fingerprint).getLast? with
      | none => rw [hq] at hget; simp at hget
      | some q =>
          obtain ⟨hqmem, hqfp⟩ := hlast _ q hq
          exact ⟨q, hqmem, hqfp⟩
    · rintro ⟨q, hq, hfp⟩
      have hfilter : q ∈ lps.filter fun r => r.fingerprint == bp.fingerprint :=
        List.mem_filter.mpr ⟨hq, by simp [hfp]⟩
      have hne2 : (lps.filter fun r => r.fingerprint == bp.fingerprint) ≠ [] :=
        List.ne_nil_of_mem hfilter
      cases hq2 : (lps.filter fun r => r.fingerprint == bp.fingerprint).getLast? with
      | none =>
          exact absurd (by simpa using congrArg Option.isSome hq2)
            (by simpa using List.getLast?_isSome.mpr hne2)
      | some q2 =>
          obtain ⟨hq2mem, _⟩ := hlast _ q2 hq2
          refine ⟨q2.path, matchProjects_hit_mem _ bps bp q2.path hbp ?_ (hne q2 hq2mem)⟩
          rw [buildFingerprintMap_get, hq2]
          rfl
  · intro bp lp hlp
    obtain ⟨hget, hlpne⟩ := matchProjects_mem_fst _ bps bp lp hlp
    rw [buildFingerprintMap_get] at hget
    cases hq : (lps.filter fun r => r.fingerprint == bp.fingerprint).getLast? with
    | none => rw [hq] at hget; simp at hget
    | some q =>
        rw [hq] at hget
        exact ⟨q, rfl, by simpa using hget.symm⟩

/-- C5 witness: two local projects share fingerprint `f`; the matcher picks
the later one's path, and the unmatched backup project is reported. -/
theorem C5_matcher_witness :
    (∀ bp ∈ [(⟨"b1", "n1", none, "f", "/o", []⟩ : BackupProjectM),
        ⟨"b2", "n2", none, "g", "/o", []⟩],
      (∃ lp, (bp, lp) ∈ (matchProjects
          [⟨"b1", "n1", none, "f", "/o", []⟩, ⟨"b2", "n2", none, "g", "/o", []⟩]
          (buildFingerprintMap
            [⟨"p1", "/a", "f", []⟩, ⟨"p2", "/b", "f", []⟩])).1) ↔
        ∃ q ∈ [(⟨"p1", "/a", "f", []⟩ : ProjectM), ⟨"p2", "/b", "f", []⟩],
          q.fingerprint = bp.fingerprint) ∧
    (∀ bp lp, (bp, lp) ∈ (matchProjects
        [⟨"b1", "n1", none, "f", "/o", []⟩, ⟨"b2", "n2", none, "g", "/o", []⟩]
        (buildFingerprintMap [⟨"p1", "/a", "f", []⟩, ⟨"p2", "/b", "f", []⟩])).1 →
      ∃ q, ([(⟨"p1", "/a", "f", []⟩ : ProjectM), ⟨"p2", "/b", "f", []⟩].filter
          fun q => q.fingerprint == bp.fingerprint).getLast? = some q ∧
        lp = q.path) ∧
    (∀ bp, ((matchProjects
        [⟨"b1", "n1", none, "f", "/o", []⟩, ⟨"b2", "n2", none, "g", "/o", []⟩]
        (buildFingerprintMap [⟨"p1", "/a", "f", []⟩, ⟨"p2", "/b", "f", []⟩])).1.map
          Prod.fst).count bp +
      (matchProjects
        [⟨"b1", "n1", none, "f", "/o", []⟩, ⟨"b2", "n2", none, "g", "/o", []⟩]
        (buildFingerprintMap [⟨"p1", "/a", "f", []⟩, ⟨"p2", "/b", "f", []⟩])).2.count bp =
      [(⟨"b1", "n1", none, "f", "/o", []⟩ : BackupProjectM),
        ⟨"b2", "n2", none, "g", "/o", []⟩].count bp) :=
  C5_matcher
    [⟨"b1", "n1", none, "f", "/o", []⟩, ⟨"b2", "n2", none, "g", "/o", []⟩]
    [⟨"p1", "/a", "f", []⟩, ⟨"p2", "/b", "f", []⟩] (by decide)

end Envii
